import Mathlib

/-!
Verification of the git-changelog-generator pipeline.

Shallow embedding of:
  * the shell changelog generator (`git_changelog.sh`): text cleaning,
    conventional-commit classification, component extraction, bug-tag
    parsing, JSON field emission, argument parsing;
  * the release sequencer (`git_tag_changelog.sh`): version validation,
    auto-increment, and the main run modelled as an effect trace;
  * the Node API wrapper (`index.js`): process-outcome handling of
    `createTagAndChangelog` / `autoIncrementTag`.

Strings are modelled as Lean `String`/`List Char`; shell pipelines
(`sed`, `tr`, `grep -oE`, `sort -u`) are translated operation by
operation, matching the byte-level behaviour of the source.
-/

namespace ChangelogGen

/-- POSIX `[[:space:]]` character class: space, tab, LF, VT, FF, CR. -/
def posixSpace (c : Char) : Bool :=
  c = ' ' || c = '\t' || c = '\n' || c = Char.ofNat 11 || c = Char.ofNat 12 || c = '\r'

/-- ASCII lowercasing, as done by `tr '[:upper:]' '[:lower:]'`. -/
def asciiLowerChar (c : Char) : Char :=
  if 'A' ≤ c && c ≤ 'Z' then Char.ofNat (c.toNat + 32) else c

/-- Lowercase a whole subject line (`tr '[:upper:]' '[:lower:]'`). -/
def asciiLower (s : String) : String :=
  ⟨s.data.map asciiLowerChar⟩

/-- ASCII alphabetic test, the `[a-zA-Z]` bracket expression. -/
def isAsciiAlpha (c : Char) : Bool :=
  ('a' ≤ c && c ≤ 'z') || ('A' ≤ c && c ≤ 'Z')

/-- Substring containment, the unanchored regex test `[[ $s =~ word ]]`. -/
def containsSub (w : List Char) : List Char → Bool
  | [] => w.isEmpty
  | c :: rest => w.isPrefixOf (c :: rest) || containsSub w rest

/-- Bash regex `^word[:()]` from the classifier: the word at the start of
the line followed by one of `:`, `(`, `)` (the bracket expression `[:()]`
contains all three characters). -/
def prefixThen (w : List Char) (l : List Char) : Bool :=
  w.isPrefixOf l &&
    match l.drop w.length with
    | [] => false
    | c :: _ => c = ':' || c = '(' || c = ')'

/-- Commit classification from `git_changelog.sh` (`generate_json`,
lines 358–374; `gather_commit_data` has the identical cascade): an
if/elif chain over the lowercased subject, producing the type string
stored in the JSON `type` field. -/
def commit_type_of (subject : String) : String :=
  let l := (asciiLower subject).data
  if prefixThen "feat".data l then "feat"
  else if prefixThen "fix".data l || containsSub "bug".data l || containsSub "patch".data l then "fix"
  else if prefixThen "docs".data l || prefixThen "doc".data l then "docs"
  else if prefixThen "style".data l then "style"
  else if prefixThen "refactor".data l then "refactor"
  else if prefixThen "perf".data l then "perf"
  else if prefixThen "test".data l then "test"
  else if prefixThen "chore".data l then "chore"
  else "other"

/-- Everything after the first occurrence of `c`, i.e. the bash
parameter expansion `${subject#*\(}` when `c = '('`. `none` when `c`
does not occur. -/
def afterFirst (c : Char) : List Char → Option (List Char)
  | [] => none
  | x :: xs => if x = c then some xs else afterFirst c xs

/-- Everything before the first occurrence of `c`, i.e. the bash
parameter expansion `${temp%%\)*}` when `c = ')'` (whole list when `c`
does not occur). -/
def takeUntil (c : Char) : List Char → List Char
  | [] => []
  | x :: xs => if x = c then [] else x :: takeUntil c xs

/-- The bash glob test `[[ $subject == *"("*"): "* ]]`: some `(`
followed (anywhere later) by the three characters `): `. -/
def globParenColon (subject : String) : Bool :=
  match afterFirst '(' subject.data with
  | none => false
  | some rest => containsSub "): ".data rest

/-- The sed substitution `s/^[a-zA-Z]*([^)]*): *//`: strip a leading
run of letters, a parenthesised scope, `):` and any following spaces.
`none` when the pattern does not match (sed leaves the line alone). -/
def stripComponentPrefix (l : List Char) : Option (List Char) :=
  match l.dropWhile isAsciiAlpha with
  | '(' :: r1 =>
    match r1.dropWhile (fun c => !(c = ')')) with
    | ')' :: ':' :: r3 => some (r3.dropWhile (· = ' '))
    | _ => none
  | _ => none

/-- The non-component branch: bash test `[[ $subject =~ ^[a-zA-Z]+:[[:space:]]* ]]`
followed by sed `s/^[a-zA-Z]*: *//`. `none` when the subject does not
start with letters immediately followed by `:`. -/
def stripWordColon (l : List Char) : Option (List Char) :=
  if (l.takeWhile isAsciiAlpha).isEmpty then none
  else
    match l.dropWhile isAsciiAlpha with
    | ':' :: r => some (r.dropWhile (· = ' '))
    | _ => none

/-- Result of component / clean-subject extraction. -/
structure ParsedSubject where
  component : String
  cleanSubject : String
deriving DecidableEq, Repr

/-- Component and clean-subject extraction from `git_changelog.sh`
(`generate_json`, lines 345–356): the glob branch extracts the text
between the first `(` and the first `)` as component and applies the
component-stripping sed; otherwise a `letters:` prefix is stripped;
otherwise the subject is kept verbatim. -/
def parse_subject (subject : String) : ParsedSubject :=
  if globParenColon subject then
    { component := ⟨takeUntil ')' ((afterFirst '(' subject.data).getD [])⟩
      cleanSubject :=
        match stripComponentPrefix subject.data with
        | some r => ⟨r⟩
        | none => subject }
  else
    match stripWordColon subject.data with
    | some r => { component := "", cleanSubject := ⟨r⟩ }
    | none => { component := "", cleanSubject := subject }

/-- The alias alternation of the grep pattern in `parse_bug_mentions`:
`@bug:(fn|functional|log|logical|flow|workflow|unit|unit-test|bound|boundary|security|perf|performance)`. -/
def bugAliasList : List String :=
  ["fn", "functional", "log", "logical", "flow", "workflow", "unit", "unit-test",
   "bound", "boundary", "security", "perf", "performance"]

/-- POSIX leftmost-longest alternation: the longest alias that is a
prefix of the remaining input (`grep -E` semantics). -/
def matchAlias (l : List Char) : Option String :=
  (bugAliasList.filter (fun a => a.data.isPrefixOf l)).foldl
    (fun acc a =>
      match acc with
      | none => some a
      | some b => if b.length < a.length then some a else some b)
    none

/-- Fuel-driven scanner body for `scanBugs`; the fuel is an upper bound
on the number of characters left, so `scanBugsF l.length l` performs the
full scan. -/
def scanBugsF : Nat → List Char → List String
  | 0, _ => []
  | _ + 1, [] => []
  | fuel + 1, c :: rest =>
    if "@bug:".data.isPrefixOf (c :: rest) then
      match matchAlias ((c :: rest).drop 5) with
      | some a => a :: scanBugsF fuel ((c :: rest).drop (5 + a.length))
      | none => scanBugsF fuel rest
    else
      scanBugsF fuel rest

/-- The scan performed by `grep -oE '@bug:(...)'`: emit every
non-overlapping leftmost-longest match (its alias code), resuming after
each match. -/
def scanBugs (l : List Char) : List String :=
  scanBugsF l.length l

/-- Byte-lexicographic order on character lists, the collation used by
`sort` on the ASCII alias codes. -/
def lexLt : List Char → List Char → Bool
  | [], [] => false
  | [], _ :: _ => true
  | _ :: _, [] => false
  | a :: as, b :: bs =>
    if a.toNat < b.toNat then true
    else if b.toNat < a.toNat then false
    else lexLt as bs

/-- Byte-lexicographic order on strings. -/
def strLt (x y : String) : Bool :=
  lexLt x.data y.data

/-- Sorted insertion without duplicates, one step of `sort -u`. -/
def insertU (x : String) : List String → List String
  | [] => [x]
  | y :: ys => if x = y then y :: ys else if strLt x y then x :: y :: ys else y :: insertU x ys

/-- `sort -u`: sort the emitted codes and drop duplicates. -/
def sortU (l : List String) : List String :=
  l.foldr insertU []

/-- The `case` mapping from alias code to canonical bug label
(`parse_bug_mentions`, lines 500–509). -/
def canonBug (code : String) : String :=
  if code = "fn" then "functional"
  else if code = "log" then "logical"
  else if code = "flow" then "workflow"
  else if code = "unit" then "unit-test"
  else if code = "bound" then "boundary"
  else if code = "security" then "security"
  else if code = "perf" then "performance"
  else code

/-- The deduplicated, sorted alias codes extracted from a message
(`grep -oE ... | sed 's/@bug://' | sort -u`). -/
def bug_codes (message : String) : List String :=
  sortU (scanBugs message.data)

/-- The bug labels of a message: the sorted codes mapped through the
alias table, in that order. -/
def bug_labels (message : String) : List String :=
  (bug_codes message).map canonBug

/-- The accumulation loop the script uses to build array bodies: the
first item is taken as-is, subsequent items are appended after `", "`
(bash `if [[ -z "$acc" ]]; then acc="$it"; else acc="$acc, $it"; fi`). -/
def joinCommaSp (items : List String) : String :=
  items.foldl (fun acc it => if acc = "" then it else acc ++ ", " ++ it) ""

/-- `parse_bug_mentions` output: a JSON array literal of quoted labels,
or the empty string when no mention is found. -/
def parse_bug_mentions (message : String) : String :=
  match bug_labels message with
  | [] => ""
  | ls => "[" ++ joinCommaSp (ls.map (fun b => "\"" ++ b ++ "\"")) ++ "]"

/-- Per-character step of `clean_text`'s JSON escaping pipeline
(`sed 's/\\/\\\\/g; s/"/\\"/g; s/\t/\\t/g; s/\r/\\r/g; s/\n/\\n/g' | tr '\n' ' '`):
backslash, quote, tab and CR are escaped; sed works line by line so the
`\n` substitution never fires, and `tr` then turns each newline into a
space. Every other character passes through unchanged. -/
def escChar (c : Char) : List Char :=
  if c = '\\' then ['\\', '\\']
  else if c = '"' then ['\\', '"']
  else if c = '\t' then ['\\', 't']
  else if c = '\r' then ['\\', 'r']
  else if c = '\n' then [' ']
  else [c]

/-- Final trim of the pipeline: `sed 's/^[[:space:]]*//;s/[[:space:]]*$//'`
applied to the single line produced by `tr`. -/
def trimPosix (l : List Char) : List Char :=
  ((l.dropWhile posixSpace).reverse.dropWhile posixSpace).reverse

/-- `clean_text "$text" "json"` from `git_changelog.sh` (lines 26–39). -/
def clean_text (text : String) : String :=
  ⟨trimPosix (text.data.flatMap escChar)⟩

/-- Split a character list at every occurrence of `c` (the fields of
`String.splitOn`, written structurally so it computes by `decide`). -/
def splitOnChar (c : Char) : List Char → List (List Char)
  | [] => [[]]
  | x :: xs =>
    let r := splitOnChar c xs
    if x = c then [] :: r
    else
      match r with
      | [] => [[x]]
      | h :: t => (x :: h) :: t

/-- Bash `IFS=',' read -ra ARR <<< "$s"`: split on commas, dropping one
trailing empty field (so the empty string yields no fields at all). -/
def bashCommaSplit (s : String) : List String :=
  let p := (splitOnChar ',' s.data).map (fun l => (⟨l⟩ : String))
  match p.getLast? with
  | some x => if x = "" then p.dropLast else p
  | none => p

/-- `convert_branches_to_json_array`: split the comma-joined branch
string, trim and JSON-escape each field, and emit a JSON array literal
(empty string when the input is empty). -/
def convert_branches_to_json_array (branches : String) : String :=
  if branches = "" then ""
  else
    match (bashCommaSplit branches).map
        (fun b => "\"" ++ clean_text ⟨trimPosix b.data⟩ ++ "\"") with
    | [] => ""
    | items => "[" ++ joinCommaSp items ++ "]"

/-- `convert_files_to_json_array`: the newline-separated `diff-tree`
output as a list of lines; empty lines are skipped, the rest trimmed,
escaped and emitted as a JSON array literal (empty string when nothing
is left). -/
def convert_files_to_json_array (files : List String) : String :=
  match (files.filter (fun f => !(f = ""))).map
      (fun f => "\"" ++ clean_text ⟨trimPosix f.data⟩ ++ "\"") with
  | [] => ""
  | items => "[" ++ joinCommaSp items ++ "]"

/-- The per-commit data available to `generate_json` right before the
field emission block (lines 400–428): the classification results plus
the raw strings fetched from git. -/
structure CommitView where
  commit_type : String
  component : String
  clean_subject : String
  hash : String
  date : String
  include_time : Bool
  timestamp : String
  author : String
  branches : String
  files : List String
  subject : String
  body : String
deriving DecidableEq, Repr

/-- The sequence of `"key": value` pairs emitted for one commit object
by `generate_json` (lines 400–428), in emission order. The second
component is the raw value text as printed (quoted strings keep their
quotes, the timestamp and array literals are unquoted). -/
def jsonFields (cv : CommitView) : List (String × String) :=
  let escaped_subject := clean_text cv.clean_subject
  let escaped_author := clean_text cv.author
  let escaped_component := clean_text cv.component
  let escaped_body := clean_text cv.body
  let branches_array := convert_branches_to_json_array cv.branches
  let files_array := convert_files_to_json_array cv.files
  let bug_types := parse_bug_mentions (cv.subject ++ " " ++ cv.body)
  [("type", "\"" ++ cv.commit_type ++ "\"")]
  ++ (if !(cv.component = "") then [("component", "\"" ++ escaped_component ++ "\"")] else [])
  ++ [("commit_log", "\"" ++ escaped_subject ++ "\""),
      ("commit_hash", "\"" ++ cv.hash ++ "\""),
      ("date", "\"" ++ cv.date ++ "\"")]
  ++ (if cv.include_time && !(cv.timestamp = "") then [("timestamp", cv.timestamp)] else [])
  ++ [("author", "\"" ++ escaped_author ++ "\"")]
  ++ (if !(branches_array = "") then [("branches", branches_array)] else [])
  ++ (if !(files_array = "") then [("files", files_array)] else [])
  ++ (if !(bug_types = "") then [("bug", bug_types)] else [])
  ++ (if !(escaped_body = "") && !(escaped_body = " ") then [("body", "\"" ++ escaped_body ++ "\"")] else [])

/-! ### Release sequencer (`git_tag_changelog.sh`) -/

/-- `validate_version`, the anchored regex `^[0-9]+\.[0-9]+\.[0-9]+$`:
exactly three dot-separated non-empty digit runs. -/
def validate_version (version : String) : Bool :=
  match splitOnChar '.' version.data with
  | [a, b, c] =>
    !a.isEmpty && !b.isEmpty && !c.isEmpty &&
      a.all Char.isDigit && b.all Char.isDigit && c.all Char.isDigit
  | _ => false

/-- Decimal value of a digit run (`none` on empty or non-digit input,
where bash arithmetic would not see a plain number). -/
def digitsToNat? (l : List Char) : Option Nat :=
  if l.isEmpty || !(l.all Char.isDigit) then none
  else some (l.foldl (fun n c => n * 10 + (c.toNat - 48)) 0)

/-- `IFS='.' read -ra PARTS` plus `${PARTS[i]:-0}` from
`increment_version`: split on dots, defaulting missing or empty parts
to `0`; numeric conversion of each used part (the model covers numeric
parts, where bash `$((...))` arithmetic reads them as decimal). -/
def parse_version_parts (version : String) : Option (Nat × Nat × Nat) :=
  let parts := splitOnChar '.' version.data
  let get := fun (i : Nat) =>
    let p := (parts.get? i).getD []
    digitsToNat? (if p.isEmpty then ['0'] else p)
  match get 0, get 1, get 2 with
  | some a, some b, some c => some (a, b, c)
  | _, _, _ => none

/-- `increment_version` (lines 156–186): bump the requested component,
resetting the lower ones; `none` models the `exit 1` on an invalid
increment type (or non-numeric parts). -/
def increment_version (version : String) (increment_type : String) : Option String :=
  match parse_version_parts version with
  | none => none
  | some (major, minor, patch) =>
    if increment_type = "major" then
      some (Nat.repr (major + 1) ++ ".0.0")
    else if increment_type = "minor" then
      some (Nat.repr major ++ "." ++ Nat.repr (minor + 1) ++ ".0")
    else if increment_type = "patch" then
      some (Nat.repr major ++ "." ++ Nat.repr minor ++ "." ++ Nat.repr (patch + 1))
    else none

/-- `parse_version_from_tag`: `sed "s/^$TAG_PREFIX//"` for a literal
prefix — strip the prefix when present. -/
def parse_version_from_tag (tag tagPrefix : String) : String :=
  if tagPrefix.data.isPrefixOf tag.data then ⟨tag.data.drop tagPrefix.data.length⟩ else tag

/-- `determine_version` (lines 204–224). An explicit version is
validated (`exit 1` on failure, modelled as `.error`). Otherwise the
latest tag (empty = none) is stripped and incremented; note that
`local new_version=$(increment_version ...)` swallows the exit of
`increment_version` inside the command substitution, so that branch
always succeeds, with an empty string on failure. No version and no
auto-increment is an error. -/
def determine_version (explicit autoInc latestTag tagPrefix : String) : Except Unit String :=
  if !(explicit = "") then
    if validate_version explicit then .ok explicit else .error ()
  else if !(autoInc = "") then
    let base := if latestTag = "" then "0.0.0" else parse_version_from_tag latestTag tagPrefix
    .ok ((increment_version base autoInc).getD "")
  else .error ()

/-- Mutating steps of the release sequencer, in execution order. -/
inductive Effect
  | changelogWrite (file : String)
  | manifestWrite (version : String)
  | commitCreate (version : String)
  | tagCreate (name : String)
  | tagPush (name : String)
deriving DecidableEq, Repr

/-- The flag state of `git_tag_changelog.sh` after argument parsing. -/
structure TagConfig where
  version : String
  tagPrefix : String
  autoIncrement : String
  changelogFile : String
  dryRun : Bool
  force : Bool
  annotated : Bool
  pushTag : Bool
deriving DecidableEq, Repr

/-- The repository state the script queries: abstracted results of the
git commands and file-existence tests it runs (the changelog generator
subprocess is assumed to succeed, returning `generatedContent`). -/
structure RepoEnv where
  inRepo : Bool
  treeClean : Bool
  latestTag : String
  existingTags : List String
  changelogFileExists : Bool
  generatedContent : String
  packageJsonExists : Bool
  stagedChanges : Bool
  hasOriginRemote : Bool
deriving DecidableEq, Repr

/-- The `main` function of `git_tag_changelog.sh` (lines 545–596) as a
trace of mutating effects plus an aborted-by-exit flag. Control points
modelled from the source: `check_git_repo` / `check_working_tree`
aborts; `local version=$(determine_version)` masking the validation
exit (`local` returns 0, so `set -e` does not fire and the run
continues with an empty version); `generate_changelog` /
`update_package_json` / `commit_changes` / `create_tag` / `push_tag`
each guarded by `DRY_RUN`; `create_tag` refusing an existing tag
without `--force`; `push_tag` aborting when no origin remote exists. -/
def mainRun (cfg : TagConfig) (env : RepoEnv) : List Effect × Bool :=
  if !env.inRepo then ([], true)
  else if !cfg.force && !env.treeClean then ([], true)
  else
    let version :=
      match determine_version cfg.version cfg.autoIncrement env.latestTag cfg.tagPrefix with
      | .ok v => v
      | .error _ => ""
    let changelogFile := if cfg.changelogFile = "" then "CHANGELOG.md" else cfg.changelogFile
    let tagName := cfg.tagPrefix ++ version
    let e1 := if cfg.dryRun then []
      else if !env.changelogFileExists || !(env.generatedContent = "") then
        [Effect.changelogWrite changelogFile]
      else []
    let e2 := if !cfg.dryRun && env.packageJsonExists then [Effect.manifestWrite version] else []
    let e3 := if !cfg.dryRun && env.stagedChanges then [Effect.commitCreate version] else []
    if env.existingTags.contains tagName && !cfg.force then (e1 ++ e2 ++ e3, true)
    else
      let e4 := if cfg.dryRun then [] else [Effect.tagCreate tagName]
      if cfg.pushTag then
        if cfg.dryRun then (e1 ++ e2 ++ e3 ++ e4, false)
        else if env.hasOriginRemote then (e1 ++ e2 ++ e3 ++ e4 ++ [Effect.tagPush tagName], false)
        else (e1 ++ e2 ++ e3 ++ e4, true)
      else (e1 ++ e2 ++ e3 ++ e4, false)

/-! ### Generator argument parsing (`git_changelog.sh`, lines 70–118) -/

/-- The option state of `git_changelog.sh`. -/
structure GenConfig where
  format : String
  sinceArg : String
  untilArg : String
  branch : String
  maxCount : String
  output : String
  title : String
  includeTime : Bool
deriving DecidableEq, Repr

/-- The script's default option values. -/
def defaultGenConfig : GenConfig :=
  ⟨"json", "", "", "HEAD", "", "", "Changelog", false⟩

/-- Result of the argument loop: a configuration, or `exit` with a
code. -/
inductive GenParse
  | ok (cfg : GenConfig)
  | exit (code : Nat)
deriving DecidableEq, Repr

/-- The `while`/`case` argument loop. A two-argument option with no
value left makes `shift 2` fail, which aborts the script with status 1
under `set -e`; `--format` with a value other than `json`/`text` is
`exit 1`; `-h`/`--help` is `exit 0`; anything unrecognised is
`exit 1`. -/
def parseGenArgs (args : List String) (cfg : GenConfig) : GenParse :=
  match args with
  | [] => .ok cfg
  | a :: rest =>
    if a = "-f" || a = "--format" then
      let fmt := rest.headD ""
      if !(fmt = "json") && !(fmt = "text") then .exit 1
      else
        match rest with
        | [] => .exit 1
        | _ :: rest2 => parseGenArgs rest2 { cfg with format := fmt }
    else if a = "-s" || a = "--since" then
      match rest with
      | [] => .exit 1
      | v :: rest2 => parseGenArgs rest2 { cfg with sinceArg := v }
    else if a = "-u" || a = "--until" then
      match rest with
      | [] => .exit 1
      | v :: rest2 => parseGenArgs rest2 { cfg with untilArg := v }
    else if a = "-b" || a = "--branch" then
      match rest with
      | [] => .exit 1
      | v :: rest2 => parseGenArgs rest2 { cfg with branch := v }
    else if a = "-n" || a = "--max-count" then
      match rest with
      | [] => .exit 1
      | v :: rest2 => parseGenArgs rest2 { cfg with maxCount := v }
    else if a = "-o" || a = "--output" then
      match rest with
      | [] => .exit 1
      | v :: rest2 => parseGenArgs rest2 { cfg with output := v }
    else if a = "-t" || a = "--title" then
      match rest with
      | [] => .exit 1
      | v :: rest2 => parseGenArgs rest2 { cfg with title := v }
    else if a = "--include-time" then parseGenArgs rest { cfg with includeTime := true }
    else if a = "-h" || a = "--help" then .exit 0
    else .exit 1

/-- Whether the script reached the `git log` commit enumeration. -/
structure GenOutcome where
  exitCode : Option Nat
  gitEnumerated : Bool
deriving DecidableEq, Repr

/-- Control flow of `git_changelog.sh`: the argument loop runs first;
only when it completes does the script build `HASH_CMD` and enumerate
commits. -/
def runGenerator (args : List String) : GenOutcome :=
  match parseGenArgs args defaultGenConfig with
  | .exit c => ⟨some c, false⟩
  | .ok _ => ⟨none, true⟩

/-! ### Node API (`index.js`) -/

/-- Terminal outcome of the spawned `git_tag_changelog.sh` process:
either the `close` event with an exit code and the accumulated stdio,
or the `error` event (spawn failure). -/
inductive ProcOutcome
  | closed (code : Int) (stdout stderr : String)
  | spawnErr (message : String)
deriving DecidableEq, Repr

/-- The object `_executeCommand` resolves with. -/
structure ExecResult where
  stdout : String
  stderr : String
  code : Int
deriving DecidableEq, Repr

/-- The error `_executeCommand` rejects with: the message, plus
`stdout`/`stderr` properties that are attached only on the nonzero-exit
path (absent — `undefined` — on a spawn error). -/
structure JsError where
  message : String
  stdoutField : Option String
  stderrField : Option String
deriving DecidableEq, Repr

/-- `_executeCommand` (lines 435–469): resolve on exit code 0, reject
otherwise — with the stderr text as message when non-empty, else a
generic exit-code message — and reject with the spawn error as-is. -/
def executeCommand (proc : ProcOutcome) : Except JsError ExecResult :=
  match proc with
  | .closed code out err =>
    if code = 0 then .ok ⟨out, err, code⟩
    else .error ⟨if err = "" then "Process exited with code " ++ toString code else err, some out, some err⟩
  | .spawnErr m => .error ⟨m, none, none⟩

/-- The result object of `createTagAndChangelog` / `autoIncrementTag`.
Fields absent from the corresponding JS object are modelled as `""` /
`false` (the success object has no `stderr` property; the failure
object has no `tag`/`changelog`/`dryRun` properties). -/
structure TagApiResult where
  success : Bool
  version : String
  tag : String
  changelog : String
  incrementType : String
  dryRun : Bool
  error : String
  output : String
  stderr : String
deriving DecidableEq, Repr

/-- The options of `createTagAndChangelog` after defaulting. -/
structure ApiOptions where
  tagPrefix : String
  format : String
  output : String
  dryRun : Bool
deriving DecidableEq, Repr

/-- The `changelogFile` computed in both API methods. -/
def changelogFileName (output version format : String) : String :=
  if !(output = "") then output
  else "CHANGELOG-" ++ version ++ "." ++
    (if format = "markdown" then "md" else if format = "json" then "json" else "txt")

/-- `createTagAndChangelog` (lines 242–332): run the script, then build
the success object, or — in the `catch` — the failure object carrying
the error message and the captured stdio. The method itself never
rejects: every path returns `.ok`. -/
def createTagAndChangelog (version : String) (opts : ApiOptions) (proc : ProcOutcome) :
    Except JsError TagApiResult :=
  match executeCommand proc with
  | .ok r =>
    .ok { success := true, version := version, tag := opts.tagPrefix ++ version,
          changelog := changelogFileName opts.output version opts.format,
          incrementType := "", dryRun := opts.dryRun,
          error := r.stderr, output := r.stdout, stderr := "" }
  | .error e =>
    .ok { success := false, version := version, tag := "", changelog := "",
          incrementType := "", dryRun := false,
          error := e.message, output := e.stdoutField.getD "", stderr := e.stderrField.getD "" }

/-- One semantic-version match `\d+\.\d+\.\d+` at the head of the
input. -/
def semverAt (l : List Char) : Option (List Char) :=
  let d1 := l.takeWhile Char.isDigit
  if d1.isEmpty then none
  else
    match l.drop d1.length with
    | '.' :: r1 =>
      let d2 := r1.takeWhile Char.isDigit
      if d2.isEmpty then none
      else
        match r1.drop d2.length with
        | '.' :: r2 =>
          let d3 := r2.takeWhile Char.isDigit
          if d3.isEmpty then none else some (d1 ++ '.' :: (d2 ++ '.' :: d3))
        | _ => none
    | _ => none

/-- Fuel-driven search for the JS regex `/Version: (\d+\.\d+\.\d+)/`:
the leftmost position where `Version: ` is followed by a semantic
version. -/
def findVersionF : Nat → List Char → Option (List Char)
  | 0, _ => none
  | _ + 1, [] => none
  | fuel + 1, c :: rest =>
    if "Version: ".data.isPrefixOf (c :: rest) then
      match semverAt ((c :: rest).drop 9) with
      | some v => some v
      | none => findVersionF fuel rest
    else findVersionF fuel rest

/-- `result.stderr.match(/Version: (\d+\.\d+\.\d+)/)`, defaulting to
`"unknown"` when there is no match. -/
def extractVersion (stderrText : String) : String :=
  match findVersionF stderrText.data.length stderrText.data with
  | some v => ⟨v⟩
  | none => "unknown"

/-- `autoIncrementTag` (lines 340–429): same structure as
`createTagAndChangelog`, with the version recovered from the logged
stderr. Every path returns `.ok`. -/
def autoIncrementTag (incrementType : String) (opts : ApiOptions) (proc : ProcOutcome) :
    Except JsError TagApiResult :=
  match executeCommand proc with
  | .ok r =>
    let version := extractVersion r.stderr
    .ok { success := true, version := version, tag := opts.tagPrefix ++ version,
          changelog := changelogFileName opts.output version opts.format,
          incrementType := incrementType, dryRun := opts.dryRun,
          error := r.stderr, output := r.stdout, stderr := "" }
  | .error e =>
    .ok { success := false, version := "", tag := "", changelog := "",
          incrementType := incrementType, dryRun := false,
          error := e.message, output := e.stdoutField.getD "", stderr := e.stderrField.getD "" }

/-- Whether the process outcome is a normal exit with code 0 — the
condition under which the API reports success. -/
def isExitZero : ProcOutcome → Bool
  | .closed c _ _ => c = 0
  | .spawnErr _ => false

/-! ### Specification-side definitions

These follow the wording of the specification (not the source); they
exist to be compared against the source-derived definitions above. -/

/-- Per the spec's claim: a conventional prefix matches only when
immediately followed by `:` or `(`. -/
def claimedPrefixThen (w l : List Char) : Bool :=
  w.isPrefixOf l &&
    match l.drop w.length with
    | [] => false
    | c :: _ => c = ':' || c = '('

/-- Classification as "an ordered list of predicate/label pairs, first
match wins" (spec §9), over the lowercased subject. -/
def classifyByRules (rules : List ((List Char → Bool) × String)) (subject : String) : String :=
  match rules.find? (fun r => r.1 (asciiLower subject).data) with
  | some r => r.2
  | none => "other"

/-- The spec's claimed rule list: prefixes require `:` or `(`. -/
def claimedRules : List ((List Char → Bool) × String) :=
  [(fun l => claimedPrefixThen "feat".data l, "feat"),
   (fun l => claimedPrefixThen "fix".data l || containsSub "bug".data l || containsSub "patch".data l, "fix"),
   (fun l => claimedPrefixThen "docs".data l || claimedPrefixThen "doc".data l, "docs"),
   (fun l => claimedPrefixThen "style".data l, "style"),
   (fun l => claimedPrefixThen "refactor".data l, "refactor"),
   (fun l => claimedPrefixThen "perf".data l, "perf"),
   (fun l => claimedPrefixThen "test".data l, "test"),
   (fun l => claimedPrefixThen "chore".data l, "chore")]

/-- The classifier the spec claims: fixed order, first match wins,
prefixes followed by `:` or `(` only. -/
def claimedClassify (subject : String) : String :=
  classifyByRules claimedRules subject

/-- The amended rule list: identical except that a prefix also matches
when followed by `)` (the source's bracket expression `[:()]`). -/
def orderedRules : List ((List Char → Bool) × String) :=
  [(fun l => prefixThen "feat".data l, "feat"),
   (fun l => prefixThen "fix".data l || containsSub "bug".data l || containsSub "patch".data l, "fix"),
   (fun l => prefixThen "docs".data l || prefixThen "doc".data l, "docs"),
   (fun l => prefixThen "style".data l, "style"),
   (fun l => prefixThen "refactor".data l, "refactor"),
   (fun l => prefixThen "perf".data l, "perf"),
   (fun l => prefixThen "test".data l, "test"),
   (fun l => prefixThen "chore".data l, "chore")]

/-- The amended ordered-rule classifier. -/
def orderedClassify (subject : String) : String :=
  classifyByRules orderedRules subject

/-- The spec's conventional form `word(scope): text`: a non-empty run
of letters, `(`, a scope without `)`, then `): `. -/
def claimedConventionalForm (subject : String) : Bool :=
  let l := subject.data
  !(l.takeWhile isAsciiAlpha).isEmpty &&
    match l.dropWhile isAsciiAlpha with
    | '(' :: r1 =>
      (match r1.dropWhile (fun c => !(c = ')')) with
       | ')' :: ':' :: ' ' :: _ => true
       | _ => false)
    | _ => false

/-- Blank string per the spec's wording: non-empty and consisting of
whitespace only. -/
def isBlankStr (s : String) : Bool :=
  !s.isEmpty && s.data.all posixSpace

/-- The single-character escape codes of the JSON grammar. -/
def jsonEscCode (c : Char) : Bool :=
  c = '"' || c = '\\' || c = '/' || c = 'b' || c = 'f' || c = 'n' || c = 'r' || c = 't'

/-- One-pass scanner for the JSON string grammar; the flag records a
pending backslash awaiting its escape code. -/
def jsonScan : Bool → List Char → Bool
  | false, [] => true
  | true, [] => false
  | false, c :: rest =>
    if c = '\\' then jsonScan true rest
    else !(c = '"') && decide (32 ≤ c.toNat) && jsonScan false rest
  | true, c :: rest => jsonEscCode c && jsonScan false rest

/-- Well-formedness of a JSON string body (the text between the
quotes), restricted to the escapes the generator can produce: every
backslash starts a legal two-character escape, and no raw quote or
control character (code point below 32) appears. A list accepted by
this scanner is a legal JSON string body. -/
def jsonStringBodyOk (l : List Char) : Bool :=
  jsonScan false l

/-- A raw (unescaped) control character below code point 32, which the
JSON grammar forbids inside string literals. -/
def hasRawControl (s : String) : Bool :=
  s.data.any (fun c => c.toNat < 32)

/-! ### Helper lemmas -/

theorem isPrefixOf_ex {w l : List Char} : w.isPrefixOf l = true ↔ ∃ t, l = w ++ t := by
  induction w generalizing l with
  | nil => simp [List.isPrefixOf]
  | cons a as ih =>
    cases l with
    | nil => simp [List.isPrefixOf]
    | cons b bs =>
      simp only [List.isPrefixOf, Bool.and_eq_true, beq_iff_eq, ih]
      constructor
      · rintro ⟨rfl, t, rfl⟩
        exact ⟨t, rfl⟩
      · rintro ⟨t, ht⟩
        injection ht with h1 h2
        exact ⟨h1.symm, t, h2⟩

theorem containsSub_ex {w l : List Char} : containsSub w l = true ↔ ∃ a b, l = a ++ w ++ b := by
  induction l with
  | nil =>
    simp only [containsSub, List.isEmpty_iff]
    constructor
    · rintro rfl
      exact ⟨[], [], rfl⟩
    · rintro ⟨a, b, h⟩
      rcases List.append_eq_nil.mp h.symm with ⟨h1, h2⟩
      exact (List.append_eq_nil.mp h1).2
  | cons c rest ih =>
    simp only [containsSub, Bool.or_eq_true, isPrefixOf_ex, ih]
    constructor
    · rintro (⟨t, ht⟩ | ⟨a, b, rfl⟩)
      · exact ⟨[], t, by simp [ht]⟩
      · exact ⟨c :: a, b, rfl⟩
    · rintro ⟨a, b, h⟩
      cases a with
      | nil => exact Or.inl ⟨b, by simpa using h⟩
      | cons x a' =>
        injection h with h1 h2
        exact Or.inr ⟨a', b, h2⟩

theorem containsSub_append_left {w t : List Char} (s : List Char)
    (h : containsSub w t = true) : containsSub w (s ++ t) = true := by
  induction s with
  | nil => simpa using h
  | cons c s' ih => simp [containsSub, ih]

theorem afterFirst_append {c : Char} {a : List Char} (t : List Char) (h : c ∉ a) :
    afterFirst c (a ++ c :: t) = some t := by
  induction a with
  | nil => simp [afterFirst]
  | cons x a' ih =>
    have hx : ¬(x = c) := fun hxc => h (by simp [hxc])
    simp only [List.cons_append, afterFirst, if_neg hx]
    exact ih (fun hm => h (List.mem_cons_of_mem x hm))

theorem afterFirst_some {c : Char} {l r : List Char} (h : afterFirst c l = some r) :
    ∃ a, l = a ++ c :: r ∧ c ∉ a := by
  induction l with
  | nil => simp [afterFirst] at h
  | cons x xs ih =>
    by_cases hx : x = c
    · subst hx
      simp [afterFirst] at h
      exact ⟨[], by simp [h], by simp⟩
    · simp only [afterFirst, if_neg hx] at h
      obtain ⟨a, ha, hna⟩ := ih h
      refine ⟨x :: a, by simp [ha], fun hm => ?_⟩
      rcases List.mem_cons.mp hm with h1 | h2
      · exact hx h1.symm
      · exact hna h2

theorem afterFirst_suffix {t : List Char} (c : Char) (x : List Char) :
    ∃ s r, afterFirst c (x ++ c :: t) = some r ∧ r = s ++ t := by
  induction x with
  | nil => exact ⟨[], t, by simp [afterFirst], rfl⟩
  | cons y x' ih =>
    by_cases hy : y = c
    · subst hy
      exact ⟨x' ++ [y], x' ++ y :: t, by simp [afterFirst], by simp⟩
    · obtain ⟨s, r, hr, hst⟩ := ih
      exact ⟨s, r, by simp only [List.cons_append, afterFirst, if_neg hy]; exact hr, hst⟩

theorem takeUntil_append {c : Char} {b : List Char} (r : List Char) (h : c ∉ b) :
    takeUntil c (b ++ c :: r) = b := by
  induction b with
  | nil => simp [takeUntil]
  | cons x b' ih =>
    have hx : ¬(x = c) := fun hxc => h (by simp [hxc])
    simp only [List.cons_append, takeUntil, if_neg hx]
    exact congrArg (x :: ·) (ih (fun hm => h (List.mem_cons_of_mem x hm)))

theorem dropWhile_append_cons {p : Char → Bool} {w : List Char} {c : Char} (t : List Char)
    (hw : ∀ x ∈ w, p x = true) (hc : p c = false) :
    List.dropWhile p (w ++ c :: t) = c :: t := by
  induction w with
  | nil => simp [List.dropWhile, hc]
  | cons x w' ih =>
    have hx : p x = true := hw x (by simp)
    simp only [List.cons_append, List.dropWhile, hx]
    exact ih (fun y hy => hw y (by simp [hy]))

theorem takeWhile_append_cons {p : Char → Bool} {w : List Char} {c : Char} (t : List Char)
    (hw : ∀ x ∈ w, p x = true) (hc : p c = false) :
    List.takeWhile p (w ++ c :: t) = w := by
  induction w with
  | nil => simp [List.takeWhile, hc]
  | cons x w' ih =>
    have hx : p x = true := hw x (by simp)
    simp only [List.cons_append, List.takeWhile, hx]
    exact congrArg (x :: ·) (ih (fun y hy => hw y (by simp [hy])))

theorem char_toNat_inj {a b : Char} (h : a.toNat = b.toNat) : a = b := by
  have h2 := congrArg Char.ofNat h
  rwa [Char.ofNat_toNat, Char.ofNat_toNat] at h2

theorem lexLt_trans : ∀ {a b c : List Char},
    lexLt a b = true → lexLt b c = true → lexLt a c = true := by
  intro a
  induction a with
  | nil =>
    intro b c hab hbc
    cases b with
    | nil => simp [lexLt] at hab
    | cons y ys =>
      cases c with
      | nil => simp [lexLt] at hbc
      | cons z zs => simp [lexLt]
  | cons x xs ih =>
    intro b c hab hbc
    cases b with
    | nil => simp [lexLt] at hab
    | cons y ys =>
      cases c with
      | nil => simp [lexLt] at hbc
      | cons z zs =>
        simp only [lexLt] at hab hbc ⊢
        by_cases h1 : x.toNat < y.toNat
        · by_cases h2 : y.toNat < z.toNat
          · simp [Nat.lt_trans h1 h2]
          · by_cases h3 : z.toNat < y.toNat
            · rw [if_neg h2, if_pos h3] at hbc
              simp at hbc
            · have hyz : y.toNat = z.toNat :=
                Nat.le_antisymm (Nat.le_of_not_lt h3) (Nat.le_of_not_lt h2)
              simp [hyz ▸ h1]
        · by_cases h1' : y.toNat < x.toNat
          · rw [if_neg h1, if_pos h1'] at hab
            simp at hab
          · have hxy : x = y :=
              char_toNat_inj (Nat.le_antisymm (Nat.le_of_not_lt h1') (Nat.le_of_not_lt h1))
            subst hxy
            rw [if_neg h1, if_neg h1'] at hab
            by_cases h2 : x.toNat < z.toNat
            · simp [h2]
            · by_cases h2' : z.toNat < x.toNat
              · rw [if_neg h2, if_pos h2'] at hbc
                simp at hbc
              · rw [if_neg h2, if_neg h2'] at hbc ⊢
                exact ih hab hbc

theorem lexLt_total : ∀ {a b : List Char},
    lexLt a b = false → lexLt b a = false → a = b := by
  intro a
  induction a with
  | nil =>
    intro b hab _
    cases b with
    | nil => rfl
    | cons y ys => simp [lexLt] at hab
  | cons x xs ih =>
    intro b hab hba
    cases b with
    | nil => simp [lexLt] at hba
    | cons y ys =>
      simp only [lexLt] at hab hba
      by_cases h1 : x.toNat < y.toNat
      · rw [if_pos h1] at hab
        simp at hab
      · by_cases h1' : y.toNat < x.toNat
        · rw [if_pos h1'] at hba
          simp at hba
        · have hxy : x = y :=
            char_toNat_inj (Nat.le_antisymm (Nat.le_of_not_lt h1') (Nat.le_of_not_lt h1))
          subst hxy
          rw [if_neg h1, if_neg h1'] at hab hba
          rw [ih hab hba]

theorem strLt_trans {a b c : String} (h1 : strLt a b = true) (h2 : strLt b c = true) :
    strLt a c = true :=
  lexLt_trans h1 h2

theorem strLt_total {a b : String} (h1 : strLt a b = false) (h2 : strLt b a = false) : a = b := by
  cases a with
  | mk la =>
    cases b with
    | mk lb => exact congrArg String.mk (lexLt_total h1 h2)

theorem mem_insertU {x a : String} {l : List String} (h : a ∈ insertU x l) :
    a = x ∨ a ∈ l := by
  induction l with
  | nil => simpa [insertU] using h
  | cons y ys ih =>
    simp only [insertU] at h
    by_cases hxy : x = y
    · rw [if_pos hxy] at h
      exact Or.inr h
    · rw [if_neg hxy] at h
      by_cases hlt : strLt x y = true
      · rw [if_pos hlt] at h
        rcases List.mem_cons.mp h with h1 | h1
        · exact Or.inl h1
        · exact Or.inr h1
      · rw [if_neg hlt] at h
        rcases List.mem_cons.mp h with h1 | h1
        · exact Or.inr (by simp [h1])
        · rcases ih h1 with h2 | h2
          · exact Or.inl h2
          · exact Or.inr (List.mem_cons_of_mem y h2)

theorem insertU_sorted {x : String} {l : List String}
    (h : List.Pairwise (fun a b => strLt a b = true) l) :
    List.Pairwise (fun a b => strLt a b = true) (insertU x l) := by
  induction l with
  | nil => simp [insertU]
  | cons y ys ih =>
    rcases List.pairwise_cons.mp h with ⟨hy, hys⟩
    simp only [insertU]
    by_cases hxy : x = y
    · rw [if_pos hxy]
      exact h
    · rw [if_neg hxy]
      by_cases hlt : strLt x y = true
      · rw [if_pos hlt]
        refine List.pairwise_cons.mpr ⟨?_, h⟩
        intro b hb
        rcases List.mem_cons.mp hb with h1 | h1
        · exact h1 ▸ hlt
        · exact strLt_trans hlt (hy b h1)
      · rw [if_neg hlt]
        refine List.pairwise_cons.mpr ⟨?_, ih hys⟩
        intro b hb
        rcases mem_insertU hb with h1 | h1
        · subst h1
          have hyx : strLt y b = false → False := by
            intro hf
            exact hxy (strLt_total (Bool.eq_false_iff.mpr hlt) hf)
          cases hv : strLt y b with
          | true => rfl
          | false => exact absurd hv hyx
        · exact hy b h1

theorem sortU_sorted (l : List String) :
    List.Pairwise (fun a b => strLt a b = true) (sortU l) := by
  induction l with
  | nil => simp [sortU]
  | cons x xs ih => exact insertU_sorted ih

theorem mem_sortU {a : String} {l : List String} (h : a ∈ sortU l) : a ∈ l := by
  induction l with
  | nil => simp [sortU] at h
  | cons x xs ih =>
    rcases mem_insertU h with h1 | h1
    · simp [h1]
    · exact List.mem_cons_of_mem x (ih h1)

theorem pickLonger_mem : ∀ (xs : List String) (acc : Option String) (a : String),
    xs.foldl (fun acc a =>
      match acc with
      | none => some a
      | some b => if b.length < a.length then some a else some b) acc = some a →
    acc = some a ∨ a ∈ xs := by
  intro xs
  induction xs with
  | nil =>
    intro acc a h
    exact Or.inl h
  | cons x xs' ih =>
    intro acc a h
    rw [List.foldl_cons] at h
    rcases ih _ a h with h1 | h1
    · cases acc with
      | none =>
        simp only at h1
        injection h1 with h2
        exact Or.inr (by simp [h2])
      | some b =>
        simp only at h1
        by_cases hlen : b.length < x.length
        · rw [if_pos hlen] at h1
          injection h1 with h2
          exact Or.inr (by simp [h2])
        · rw [if_neg hlen] at h1
          exact Or.inl h1
    · exact Or.inr (List.mem_cons_of_mem x h1)

theorem matchAlias_mem {l : List Char} {a : String} (h : matchAlias l = some a) :
    a ∈ bugAliasList := by
  rcases pickLonger_mem _ none a h with h1 | h1
  · exact absurd h1 (by simp)
  · exact (List.mem_filter.mp h1).1

theorem scanBugsF_mem : ∀ (fuel : Nat) (l : List Char) (a : String),
    a ∈ scanBugsF fuel l → a ∈ bugAliasList := by
  intro fuel
  induction fuel with
  | zero =>
    intro l a h
    simp [scanBugsF] at h
  | succ n ih =>
    intro l a h
    cases l with
    | nil => simp [scanBugsF] at h
    | cons c rest =>
      simp only [scanBugsF] at h
      by_cases hp : "@bug:".data.isPrefixOf (c :: rest) = true
      · rw [if_pos hp] at h
        cases hm : matchAlias ((c :: rest).drop 5) with
        | none =>
          rw [hm] at h
          exact ih _ a h
        | some al =>
          rw [hm] at h
          rcases List.mem_cons.mp h with h1 | h1
          · exact h1 ▸ matchAlias_mem hm
          · exact ih _ a h1
      · rw [if_neg hp] at h
        exact ih _ a h

theorem bug_codes_mem {m : String} {a : String} (h : a ∈ bug_codes m) : a ∈ bugAliasList :=
  scanBugsF_mem _ _ a (mem_sortU h)

theorem globParenColon_ex {s : String} :
    globParenColon s = true ↔
      ∃ x y z : List Char, s.data = x ++ '(' :: (y ++ ')' :: ':' :: ' ' :: z) := by
  constructor
  · intro h
    unfold globParenColon at h
    cases haf : afterFirst '(' s.data with
    | none =>
      rw [haf] at h
      simp at h
    | some rest =>
      rw [haf] at h
      obtain ⟨a, ha, _⟩ := afterFirst_some haf
      obtain ⟨u, v, huv⟩ := containsSub_ex.mp h
      refine ⟨a, u, v, ?_⟩
      rw [ha, huv]
      simp
  · rintro ⟨x, y, z, hs⟩
    obtain ⟨sfx, r, hr, hrst⟩ := afterFirst_suffix (t := y ++ ')' :: ':' :: ' ' :: z) '(' x
    unfold globParenColon
    rw [hs, hr]
    subst hrst
    exact containsSub_append_left sfx
      (containsSub_ex.mpr ⟨y, z, by simp [List.append_assoc]⟩)

theorem isAsciiAlpha_notMem_of_all {w : List Char} {c : Char}
    (hw : ∀ x ∈ w, isAsciiAlpha x = true) (hc : isAsciiAlpha c = false) : c ∉ w := by
  intro hm
  rw [hw c hm] at hc
  exact absurd hc (by simp)

theorem parse_subject_component {a b c : List Char} (ha : '(' ∉ a) (hb : ')' ∉ b) :
    (parse_subject ⟨a ++ '(' :: (b ++ ')' :: ':' :: ' ' :: c)⟩).component = ⟨b⟩ := by
  have hg : globParenColon ⟨a ++ '(' :: (b ++ ')' :: ':' :: ' ' :: c)⟩ = true :=
    globParenColon_ex.mpr ⟨a, b, c, rfl⟩
  unfold parse_subject
  rw [if_pos hg]
  have haf : afterFirst '(' (a ++ '(' :: (b ++ ')' :: ':' :: ' ' :: c)) =
      some (b ++ ')' :: ':' :: ' ' :: c) := afterFirst_append _ ha
  simp only [haf, Option.getD_some]
  exact congrArg String.mk (takeUntil_append (':' :: ' ' :: c) hb)

theorem stripComponentPrefix_conv {w b c : List Char}
    (hw : ∀ x ∈ w, isAsciiAlpha x = true) (hb : ')' ∉ b) :
    stripComponentPrefix (w ++ '(' :: (b ++ ')' :: ':' :: ' ' :: c)) =
      some (c.dropWhile (· = ' ')) := by
  have hb' : ∀ x ∈ b, (!(x = ')')) = true := by
    intro x hx
    simp only [Bool.not_eq_eq_eq_not, Bool.not_true, decide_eq_false_iff_not]
    intro hx'
    exact hb (hx' ▸ hx)
  have h1 : List.dropWhile isAsciiAlpha (w ++ '(' :: (b ++ ')' :: ':' :: ' ' :: c)) =
      '(' :: (b ++ ')' :: ':' :: ' ' :: c) :=
    dropWhile_append_cons _ hw (show isAsciiAlpha '(' = false from rfl)
  have h2 : List.dropWhile (fun x => !(x = ')')) (b ++ ')' :: ':' :: ' ' :: c) =
      ')' :: ':' :: ' ' :: c :=
    dropWhile_append_cons _ hb' (by decide)
  simp only [stripComponentPrefix, h1, h2]
  simp [List.dropWhile]

theorem parse_subject_conv {w b c : List Char}
    (hw : ∀ x ∈ w, isAsciiAlpha x = true) (hb : ')' ∉ b) :
    parse_subject ⟨w ++ '(' :: (b ++ ')' :: ':' :: ' ' :: c)⟩ =
      ⟨⟨b⟩, ⟨c.dropWhile (· = ' ')⟩⟩ := by
  have ha : '(' ∉ w := isAsciiAlpha_notMem_of_all hw rfl
  have hg : globParenColon ⟨w ++ '(' :: (b ++ ')' :: ':' :: ' ' :: c)⟩ = true :=
    globParenColon_ex.mpr ⟨w, b, c, rfl⟩
  have haf : afterFirst '(' (w ++ '(' :: (b ++ ')' :: ':' :: ' ' :: c)) =
      some (b ++ ')' :: ':' :: ' ' :: c) := afterFirst_append _ ha
  unfold parse_subject
  rw [if_pos hg]
  rw [show (⟨w ++ '(' :: (b ++ ')' :: ':' :: ' ' :: c)⟩ : String).data =
      w ++ '(' :: (b ++ ')' :: ':' :: ' ' :: c) from rfl]
  rw [haf, stripComponentPrefix_conv hw hb]
  simp only [Option.getD_some]
  rw [takeUntil_append (':' :: ' ' :: c) hb]

theorem stripWordColon_app {w c : List Char}
    (hw : ∀ x ∈ w, isAsciiAlpha x = true) (hne : w ≠ []) :
    stripWordColon (w ++ ':' :: c) = some (c.dropWhile (· = ' ')) := by
  have h1 : List.takeWhile isAsciiAlpha (w ++ ':' :: c) = w :=
    takeWhile_append_cons _ hw (show isAsciiAlpha ':' = false from rfl)
  have h2 : List.dropWhile isAsciiAlpha (w ++ ':' :: c) = ':' :: c :=
    dropWhile_append_cons _ hw (show isAsciiAlpha ':' = false from rfl)
  simp only [stripWordColon, h1, h2]
  simp [List.isEmpty_iff, hne]

theorem parse_subject_word_colon {w c : List Char}
    (hw : ∀ x ∈ w, isAsciiAlpha x = true) (hne : w ≠ [])
    (hng : globParenColon ⟨w ++ ':' :: c⟩ = false) :
    parse_subject ⟨w ++ ':' :: c⟩ = ⟨"", ⟨c.dropWhile (· = ' ')⟩⟩ := by
  unfold parse_subject
  rw [if_neg (by simp [hng])]
  rw [show (⟨w ++ ':' :: c⟩ : String).data = w ++ ':' :: c from rfl, stripWordColon_app hw hne]

theorem parse_subject_verbatim {s : String}
    (hng : globParenColon s = false) (hnw : stripWordColon s.data = none) :
    parse_subject s = ⟨"", s⟩ := by
  unfold parse_subject
  rw [if_neg (by simp [hng]), hnw]

theorem parse_subject_component_empty {s : String} (hng : globParenColon s = false) :
    (parse_subject s).component = "" := by
  unfold parse_subject
  rw [if_neg (by simp [hng])]
  cases stripWordColon s.data <;> rfl

theorem jsonScan_escChar {c : Char}
    (hc : 32 ≤ c.toNat ∨ c = '\t' ∨ c = '\r' ∨ c = '\n') (rest : List Char) :
    jsonScan false (escChar c ++ rest) = jsonScan false rest := by
  by_cases h1 : c = '\\'
  · subst h1
    simp [escChar, jsonScan, jsonEscCode]
  · by_cases h2 : c = '"'
    · subst h2
      simp [escChar, jsonScan, jsonEscCode]
    · by_cases h3 : c = '\t'
      · subst h3
        simp [escChar, jsonScan, jsonEscCode]
      · by_cases h4 : c = '\r'
        · subst h4
          simp [escChar, jsonScan, jsonEscCode]
        · by_cases h5 : c = '\n'
          · subst h5
            simp [escChar, jsonScan, jsonEscCode]
          · have hge : 32 ≤ c.toNat := by
              rcases hc with h | h | h | h
              · exact h
              · exact absurd h h3
              · exact absurd h h4
              · exact absurd h h5
            simp [escChar, h1, h2, h3, h4, h5, jsonScan, hge]

theorem jsonScan_flatMap {l : List Char}
    (h : ∀ c ∈ l, 32 ≤ c.toNat ∨ c = '\t' ∨ c = '\r' ∨ c = '\n') :
    jsonScan false (l.flatMap escChar) = true := by
  induction l with
  | nil => rfl
  | cons c cs ih =>
    rw [List.flatMap_cons, jsonScan_escChar (h c (by simp))]
    exact ih (fun x hx => h x (by simp [hx]))

theorem posixSpace_not_backslash {c : Char} (h : posixSpace c = true) : ¬(c = '\\') := by
  intro he
  subst he
  simp [posixSpace] at h

theorem jsonScan_dropWhile_posix {l : List Char} (h : jsonScan false l = true) :
    jsonScan false (l.dropWhile posixSpace) = true := by
  induction l with
  | nil => exact h
  | cons c cs ih =>
    by_cases hp : posixSpace c = true
    · rw [List.dropWhile_cons_of_pos hp]
      apply ih
      simp only [jsonScan, if_neg (posixSpace_not_backslash hp), Bool.and_eq_true] at h
      exact h.2
    · rwa [List.dropWhile_cons_of_neg (by simpa using hp)]

theorem jsonScan_append_spaces {sp : List Char} (hsp : ∀ c ∈ sp, posixSpace c = true) :
    ∀ (l : List Char) (b : Bool), jsonScan b (l ++ sp) = true → jsonScan b l = true := by
  intro l
  induction l with
  | nil =>
    intro b h
    cases b with
    | false => rfl
    | true =>
      exfalso
      rw [List.nil_append] at h
      cases hs : sp with
      | nil =>
        rw [hs] at h
        simp [jsonScan] at h
      | cons e sp2 =>
        rw [hs] at h
        simp only [jsonScan, Bool.and_eq_true] at h
        have he : posixSpace e = true := hsp e (by simp [hs])
        simp only [posixSpace, Bool.or_eq_true, decide_eq_true_eq] at he
        rcases he with (((((rfl | rfl) | rfl) | rfl) | rfl) | rfl) <;> simp [jsonEscCode] at h
  | cons c cs ih =>
    intro b h
    cases b with
    | false =>
      rw [List.cons_append] at h
      simp only [jsonScan] at h ⊢
      by_cases hbs : c = '\\'
      · rw [if_pos hbs] at h ⊢
        exact ih true h
      · rw [if_neg hbs] at h ⊢
        simp only [Bool.and_eq_true] at h ⊢
        exact ⟨h.1, ih false h.2⟩
    | true =>
      rw [List.cons_append] at h
      simp only [jsonScan, Bool.and_eq_true] at h ⊢
      exact ⟨h.1, ih false h.2⟩

theorem mem_takeWhile_sat {p : Char → Bool} : ∀ {l : List Char} {x : Char},
    x ∈ l.takeWhile p → p x = true := by
  intro l
  induction l with
  | nil =>
    intro x hx
    simp [List.takeWhile] at hx
  | cons c cs ih =>
    intro x hx
    by_cases hc : p c = true
    · rw [List.takeWhile_cons_of_pos hc] at hx
      rcases List.mem_cons.mp hx with rfl | h2
      · exact hc
      · exact ih h2
    · rw [List.takeWhile_cons_of_neg (by simpa using hc)] at hx
      simp at hx

theorem jsonOk_trimPosix {l : List Char} (h : jsonScan false l = true) :
    jsonStringBodyOk (trimPosix l) = true := by
  unfold jsonStringBodyOk trimPosix
  have h1 : jsonScan false (l.dropWhile posixSpace) = true := jsonScan_dropWhile_posix h
  have hsplit : (l.dropWhile posixSpace).reverse.takeWhile posixSpace ++
      (l.dropWhile posixSpace).reverse.dropWhile posixSpace = (l.dropWhile posixSpace).reverse :=
    List.takeWhile_append_dropWhile _ _
  have hdecomp : l.dropWhile posixSpace =
      ((l.dropWhile posixSpace).reverse.dropWhile posixSpace).reverse ++
        ((l.dropWhile posixSpace).reverse.takeWhile posixSpace).reverse := by
    rw [← List.reverse_append, hsplit, List.reverse_reverse]
  rw [hdecomp] at h1
  exact jsonScan_append_spaces
    (fun c hc => mem_takeWhile_sat (List.mem_reverse.mp hc)) _ false h1

theorem clean_text_jsonOk {s : String}
    (h : ∀ c ∈ s.data, 32 ≤ c.toNat ∨ c = '\t' ∨ c = '\r' ∨ c = '\n') :
    jsonStringBodyOk (clean_text s).data = true :=
  jsonOk_trimPosix (jsonScan_flatMap h)

theorem dropWhile_head_false {p : Char → Bool} :
    ∀ {l : List Char} {x : Char} {t : List Char}, List.dropWhile p l = x :: t → p x = false := by
  intro l
  induction l with
  | nil =>
    intro x t h
    simp [List.dropWhile] at h
  | cons c cs ih =>
    intro x t h
    by_cases hc : p c = true
    · rw [List.dropWhile_cons_of_pos hc] at h
      exact ih h
    · rw [List.dropWhile_cons_of_neg (by simpa using hc)] at h
      injection h with h1 _
      subst h1
      simpa using hc

theorem trimPosix_ne_space (l : List Char) : trimPosix l ≠ [' '] := by
  intro h
  unfold trimPosix at h
  have h2 : (l.dropWhile posixSpace).reverse.dropWhile posixSpace = [' '] := by
    have h3 := congrArg List.reverse h
    simpa using h3
  have h4 := dropWhile_head_false h2
  simp [posixSpace] at h4

theorem clean_text_ne_space (s : String) : clean_text s ≠ " " := by
  intro h
  have h2 : trimPosix (s.data.flatMap escChar) = [' '] := by
    have h3 := congrArg String.data h
    simpa [clean_text] using h3
  exact trimPosix_ne_space _ h2

theorem parse_bug_mentions_empty {m : String} :
    (parse_bug_mentions m = "") ↔ bug_labels m = [] := by
  unfold parse_bug_mentions
  cases h : bug_labels m with
  | nil => simp
  | cons a ls =>
    simp only [String.ext_iff, String.data_append]
    constructor
    · intro he
      simp at he
    · intro hc
      exact absurd hc (by simp)

theorem splitOnChar_ne_nil (c : Char) : ∀ (l : List Char), splitOnChar c l ≠ [] := by
  intro l
  induction l with
  | nil => simp [splitOnChar]
  | cons x xs ih =>
    simp only [splitOnChar]
    by_cases hx : x = c
    · rw [if_pos hx]
      simp
    · rw [if_neg hx]
      cases h : splitOnChar c xs with
      | nil => simp
      | cons h' t' => simp

theorem splitOnChar_eq_single_nil {c : Char} : ∀ {l : List Char},
    splitOnChar c l = [[]] → l = [] := by
  intro l
  cases l with
  | nil => intro _; rfl
  | cons x xs =>
    intro h
    exfalso
    simp only [splitOnChar] at h
    by_cases hx : x = c
    · rw [if_pos hx] at h
      injection h with _ h2
      exact splitOnChar_ne_nil c xs h2
    · rw [if_neg hx] at h
      cases hs : splitOnChar c xs with
      | nil => exact splitOnChar_ne_nil c xs hs
      | cons h' t' =>
        rw [hs] at h
        injection h with h1 _
        simp at h1

theorem bashCommaSplit_ne_nil {s : String} (h : s ≠ "") : bashCommaSplit s ≠ [] := by
  unfold bashCommaSplit
  intro hc
  cases hl : (splitOnChar ',' s.data).map (fun l => (⟨l⟩ : String)) with
  | nil => exact splitOnChar_ne_nil ',' s.data (List.map_eq_nil_iff.mp hl)
  | cons p ps =>
    rw [hl] at hc
    dsimp only at hc
    cases hlast : (p :: ps).getLast? with
    | none => simp at hlast
    | some last =>
      rw [hlast] at hc
      simp only at hc
      by_cases hempty : last = ""
      · rw [if_pos hempty] at hc
        cases ps with
        | nil =>
          have hp : p = last := by simpa using hlast
          have hsingle : splitOnChar ',' s.data = [[]] := by
            cases hs2 : splitOnChar ',' s.data with
            | nil => exact absurd hs2 (splitOnChar_ne_nil ',' s.data)
            | cons q qs =>
              rw [hs2] at hl
              injection hl with hq hqs
              cases qs with
              | nil =>
                have hq' : q = [] := by
                  have hq2 := congrArg String.data hq
                  simp [hp, hempty] at hq2
                  exact hq2
                rw [hq']
              | cons r rs => simp at hqs
          have hdat : s.data = [] := splitOnChar_eq_single_nil hsingle
          exact h (String.ext (by simp [hdat]))
        | cons p2 ps2 => simp at hc
      · rw [if_neg hempty] at hc
        simp at hc

theorem fold_join_extends : ∀ (rest : List String) (acc : String), acc.data ≠ [] →
    ∃ t, (rest.foldl (fun acc it => if acc = "" then it else acc ++ ", " ++ it) acc).data =
      acc.data ++ t := by
  intro rest
  induction rest with
  | nil =>
    intro acc _
    exact ⟨[], by simp⟩
  | cons it rest' ih =>
    intro acc hacc
    rw [List.foldl_cons]
    have hne : ¬(acc = "") := by
      intro he
      subst he
      exact hacc rfl
    rw [if_neg hne]
    obtain ⟨t, ht⟩ := ih (acc ++ ", " ++ it) (by simp)
    refine ⟨(", " ++ it).data ++ t, ?_⟩
    rw [ht]
    simp

theorem joinCommaSp_cons (i : String) (rest : List String) (hi : i.data ≠ []) :
    ∃ t, (joinCommaSp (i :: rest)).data = i.data ++ t := by
  unfold joinCommaSp
  rw [List.foldl_cons, if_pos rfl]
  exact fold_join_extends rest i hi

theorem bracket_join_shape {items : List String} {i0 : String} {irest : List String}
    (hitems : items = i0 :: irest) {w : List Char} (hi : i0.data = '"' :: w) :
    ∃ r, ("[" ++ joinCommaSp items ++ "]").data = '[' :: '"' :: r := by
  subst hitems
  obtain ⟨t, ht⟩ := joinCommaSp_cons i0 irest (by simp [hi])
  refine ⟨w ++ t ++ [']'], ?_⟩
  simp [ht, hi]

theorem mem_fst_ite {k : String} {xs : List (String × String)} {c : Prop} [Decidable c] :
    (k ∈ (if c then xs else []).map Prod.fst) ↔ (c ∧ k ∈ xs.map Prod.fst) := by
  by_cases h : c <;> simp [h]

theorem convert_branches_empty {br : String} :
    (convert_branches_to_json_array br = "") ↔ br = "" := by
  unfold convert_branches_to_json_array
  by_cases h : br = ""
  · simp [h]
  · rw [if_neg h]
    constructor
    · intro hc
      cases hm : (bashCommaSplit br).map (fun b => "\"" ++ clean_text ⟨trimPosix b.data⟩ ++ "\"") with
      | nil => exact absurd (List.map_eq_nil_iff.mp hm) (bashCommaSplit_ne_nil h)
      | cons i is =>
        rw [hm] at hc
        dsimp only at hc
        have h2 := congrArg String.data hc
        simp at h2
    · intro hb
      exact absurd hb h

theorem convert_files_empty {files : List String} :
    (convert_files_to_json_array files = "") ↔ files.filter (fun f => !(f = "")) = [] := by
  unfold convert_files_to_json_array
  cases hm : (files.filter (fun f => !(f = ""))).map
      (fun f => "\"" ++ clean_text ⟨trimPosix f.data⟩ ++ "\"") with
  | nil => simp [List.map_eq_nil_iff.mp hm]
  | cons i is =>
    dsimp only
    constructor
    · intro hc
      have h2 := congrArg String.data hc
      simp at h2
    · intro hf
      rw [hf] at hm
      simp at hm

theorem ne_of_data_head {v w : String} {c d : Char} {r t : List Char}
    (hv : v.data = c :: r) (hw : w.data = d :: t) (hcd : ¬ c = d) : v ≠ w := by
  intro he
  subst he
  rw [hv] at hw
  injection hw with h1 _
  exact hcd h1

theorem quoted_data (x : String) : ("\"" ++ x ++ "\"").data = '"' :: (x.data ++ ['"']) := by
  simp

/-! ### Classifier support lemmas -/

theorem asciiLower_append (a b : String) :
    (asciiLower (a ++ b)).data = (asciiLower a).data ++ (asciiLower b).data := by
  simp [asciiLower]

theorem prefixThen_concrete {w : List Char} {c : Char}
    (hc : c = ':' ∨ c = '(' ∨ c = ')') (t : List Char) :
    prefixThen w (w ++ c :: t) = true := by
  unfold prefixThen
  have hp : w.isPrefixOf (w ++ c :: t) = true := isPrefixOf_ex.mpr ⟨c :: t, rfl⟩
  rw [hp, List.drop_left w (c :: t)]
  rcases hc with rfl | rfl | rfl <;> simp

/-! ### Claim theorems -/

/-- C3: version determination of the Release Sequencer. For a latest
tag `v<X.Y.Z>`, `--auto-increment major` yields `(X+1).0.0`, `minor`
yields `X.(Y+1).0`, and `patch` yields `X.Y.(Z+1)`; with no tag the
base defaults to `0.0.0`, so `patch` yields `0.0.1`; in particular
`v2.3.9` yields `3.0.0` / `2.4.0` / `2.3.10`. -/
theorem C3_auto_increment :
    (∀ (v : String) (a b c : Nat), parse_version_parts v = some (a, b, c) →
      determine_version "" "major" ("v" ++ v) "v" = .ok (Nat.repr (a + 1) ++ ".0.0")
      ∧ determine_version "" "minor" ("v" ++ v) "v" =
          .ok (Nat.repr a ++ "." ++ Nat.repr (b + 1) ++ ".0")
      ∧ determine_version "" "patch" ("v" ++ v) "v" =
          .ok (Nat.repr a ++ "." ++ Nat.repr b ++ "." ++ Nat.repr (c + 1)))
    ∧ determine_version "" "patch" "" "v" = .ok "0.0.1"
    ∧ determine_version "" "major" "v2.3.9" "v" = .ok "3.0.0"
    ∧ determine_version "" "minor" "v2.3.9" "v" = .ok "2.4.0"
    ∧ determine_version "" "patch" "v2.3.9" "v" = .ok "2.3.10" := by
  refine ⟨?_, rfl, rfl, rfl, rfl⟩
  intro v a b c hparse
  have hne : ¬(("v" ++ v) = "") := by
    intro he
    have h2 := congrArg String.data he
    simp at h2
  have hstrip : parse_version_from_tag ("v" ++ v) "v" = v := by
    unfold parse_version_from_tag
    rw [if_pos (isPrefixOf_ex.mpr ⟨v.data, by simp⟩)]
    show (⟨List.drop 1 ('v' :: v.data)⟩ : String) = v
    rfl
  refine ⟨?_, ?_, ?_⟩ <;>
    simp [determine_version, hne, hstrip, increment_version, hparse]

/-- C3 witness: the general statement applied to the concrete tag
`v2.3.9`. -/
theorem C3_auto_increment_witness :
    parse_version_parts "2.3.9" = some (2, 3, 9)
    ∧ determine_version "" "minor" ("v" ++ "2.3.9") "v" =
        .ok (Nat.repr 2 ++ "." ++ Nat.repr (3 + 1) ++ ".0") := by
  refine ⟨by decide, ?_⟩
  exact (C3_auto_increment.1 "2.3.9" 2 3 9 (by decide)).2.1

/-- C6: the claim says an invalid explicit version such as `1.2` fails
fatally during version determination with no mutation. In the code,
`validate_version` does reject `1.2` and calls `exit 1` — but the call
site `local version=$(determine_version)` runs it in a command
substitution whose exit status is masked by `local`, so the run
continues with an empty version and mutates: it rewrites the changelog,
writes an empty version into the manifest, commits, and creates the tag
`v` (prefix plus empty version). This theorem evaluates the model at
that failing input: validation fails, yet the effect trace contains
every mutation. -/
theorem C6_invalid_version_mutates :
    validate_version "1.2" = false
    ∧ determine_version "1.2" "" "" "v" = .error ()
    ∧ mainRun
        ⟨"1.2", "v", "", "", false, false, true, false⟩
        ⟨true, true, "", [], false, "section", true, true, true⟩ =
      ([.changelogWrite "CHANGELOG.md", .manifestWrite "", .commitCreate "", .tagCreate "v"],
        false) :=
  ⟨by decide, rfl, by decide⟩

/-- C7: with `--dry-run`, every mutating step of the release sequencer
(changelog write, manifest write, commit, tag creation, push) is
replaced by a log-only no-op: the effect trace is empty for every
combination of flags and repository states. -/
theorem C7_dry_run_no_effects (cfg : TagConfig) (env : RepoEnv) (h : cfg.dryRun = true) :
    (mainRun cfg env).1 = [] := by
  unfold mainRun
  by_cases h1 : env.inRepo = true
  · by_cases h2 : (!cfg.force && !env.treeClean) = true
    · simp [h1, h2]
    · by_cases h3 : (env.existingTags.contains
          (cfg.tagPrefix ++ match determine_version cfg.version cfg.autoIncrement
            env.latestTag cfg.tagPrefix with | .ok v => v | .error _ => "") && !cfg.force) = true
      · simp only [h, Bool.not_eq_eq_eq_not] at *
        split_ifs <;> simp_all
      · simp only [h, Bool.not_eq_eq_eq_not] at *
        split_ifs <;> simp_all
  · simp [h1]

/-- C7 witness: a concrete dry run with push and force set leaves no
effects. -/
theorem C7_dry_run_witness :
    (⟨"", "v", "patch", "", true, true, false, true⟩ : TagConfig).dryRun = true
    ∧ (mainRun ⟨"", "v", "patch", "", true, true, false, true⟩
        ⟨true, false, "v2.3.9", ["v2.4.0"], true, "x", true, true, false⟩).1 = [] :=
  ⟨rfl, C7_dry_run_no_effects _ _ rfl⟩

/-- C8: a `--format` value outside {json, text} makes the generator
exit with status 1 inside the argument loop, before any `git log`
commit enumeration is reached. -/
theorem C8_invalid_format_exits (fmt : String) (rest : List String)
    (h1 : ¬(fmt = "json")) (h2 : ¬(fmt = "text")) :
    runGenerator ("--format" :: fmt :: rest) = ⟨some 1, false⟩ := by
  unfold runGenerator parseGenArgs
  simp [h1, h2]

/-- C8 witness: `--format invalid` exits with code 1 without
enumerating commits. -/
theorem C8_invalid_format_witness :
    ¬(("invalid" : String) = "json") ∧ ¬(("invalid" : String) = "text")
    ∧ runGenerator ["--format", "invalid"] = ⟨some 1, false⟩ :=
  ⟨by decide, by decide, C8_invalid_format_exits "invalid" [] (by decide) (by decide)⟩

/-- C9 counterexample: the claim says the renderer escapes control
characters per standard JSON rules for every possible content. The
`clean_text` pipeline escapes only backslash, quote, tab and CR (and
turns newlines into spaces); any other control character — here U+0001
— passes through raw, so the emitted string body is not well-formed
JSON. -/
theorem C9_counterexample :
    hasRawControl (clean_text ⟨['a', Char.ofNat 1, 'b']⟩) = true
    ∧ jsonStringBodyOk (clean_text ⟨['a', Char.ofNat 1, 'b']⟩).data = false := by
  constructor
  · decide
  · decide

/-- C9 amended: `clean_text` escapes backslashes, quotes, tabs and CRs
and converts newlines to spaces, so the emitted JSON string body is
well-formed for every input whose control characters are limited to
tab, CR and LF; other control characters pass through unescaped. -/
theorem C9_escapes_tame_input (s : String)
    (h : ∀ c ∈ s.data, 32 ≤ c.toNat ∨ c = '\t' ∨ c = '\r' ∨ c = '\n') :
    jsonStringBodyOk (clean_text s).data = true :=
  clean_text_jsonOk h

/-- C9 witness: the amended statement applied to a concrete string with
quotes, a backslash, and all three tolerated control characters. -/
theorem C9_escapes_witness :
    (∀ c ∈ ("say \"hi\"\t\r\n \\ ok" : String).data,
      32 ≤ c.toNat ∨ c = '\t' ∨ c = '\r' ∨ c = '\n')
    ∧ jsonStringBodyOk (clean_text "say \"hi\"\t\r\n \\ ok").data = true :=
  ⟨by decide, C9_escapes_tame_input "say \"hi\"\t\r\n \\ ok" (by decide)⟩

/-- C2 counterexample: the claim says the bug-label list is
deduplicated and sorted. The code deduplicates and sorts the alias
codes before mapping them to labels, so a message carrying both alias
forms (`@bug:fn` and `@bug:functional`) yields the label `functional`
twice, and a message with `@bug:flow @bug:fn` yields labels ordered by
code (`workflow` before `functional`), not sorted as labels. -/
theorem C2_counterexample :
    bug_labels "@bug:fn @bug:functional" = ["functional", "functional"]
    ∧ ¬ (bug_labels "@bug:fn @bug:functional").Nodup
    ∧ bug_labels "@bug:flow @bug:fn" = ["workflow", "functional"]
    ∧ ¬ List.Pairwise (fun a b => strLt a b = true) (bug_labels "@bug:flow @bug:fn") := by
  refine ⟨by decide, by decide, by decide, by decide⟩

/-- C2 amended: the scan collects `@bug:<code>` alias codes from the
subject+body text; `sort -u` deduplicates and sorts the **codes**
(strictly increasing, hence duplicate-free), every code comes from the
fixed alias set, and the label list is the code list mapped through the
alias table — so `@bug:fn` with `@bug:security` yields exactly
`["functional", "security"]`, while duplicate labels can survive when
both alias forms of one category appear. -/
theorem C2_bug_codes_sorted :
    (∀ m : String, List.Pairwise (fun a b => strLt a b = true) (bug_codes m)
      ∧ (∀ c ∈ bug_codes m, c ∈ bugAliasList))
    ∧ bug_labels "@bug:fn and @bug:security" = ["functional", "security"] := by
  refine ⟨fun m => ⟨sortU_sorted _, fun c hc => bug_codes_mem hc⟩, by decide⟩

/-- C2 witness: the general statement applied to a concrete message. -/
theorem C2_bug_codes_witness :
    List.Pairwise (fun a b => strLt a b = true) (bug_codes "@bug:security @bug:fn")
    ∧ ("fn" ∈ bug_codes "@bug:security @bug:fn")
    ∧ "fn" ∈ bugAliasList := by
  refine ⟨(C2_bug_codes_sorted.1 "@bug:security @bug:fn").1, by decide,
    (C2_bug_codes_sorted.1 "@bug:security @bug:fn").2 "fn" (by decide)⟩

/-- C1 counterexample: two clauses of the claim fail on the code.
The classifier's bash bracket expression `[:()]` also matches `)`, so
the subject `feat) x` — which the claim's rule (prefix followed by `:`
or `(` only) sends to `other` — is classified `feat`. And the subject
`feat: see (note): x` begins with `feat:` yet its cleanSubject does not
exclude the prefix: the parenthesis pattern routes it through the
component branch, whose sed fails to match, leaving the subject
verbatim. -/
theorem C1_counterexample :
    commit_type_of "feat) x" = "feat"
    ∧ claimedClassify "feat) x" = "other"
    ∧ commit_type_of "feat: see (note): x" = "feat"
    ∧ (parse_subject "feat: see (note): x").cleanSubject = "feat: see (note): x" := by
  refine ⟨by decide, by decide, by decide, by decide⟩

/-- C1 amended: classification follows the fixed first-match-wins rule
order of the claim, except that a prefix also matches when followed by
`)` (the code's `[:()]` class): the classifier equals the ordered
rule-list classifier built from those predicates. Every subject
beginning `feat:` or `feat(scope):` is classified feature even when it
contains "bug"/"patch"/"fix"; its cleanSubject excludes the prefix —
for `feat:` subjects provided the remainder does not itself contain the
`(`…`): ` pattern (which would route the subject through the component
branch and leave it verbatim), and for `feat(scope):` subjects whose
scope contains no `)`. -/
theorem C1_classifier :
    (∀ s : String, commit_type_of s = orderedClassify s)
    ∧ (∀ rest : String, commit_type_of ("feat:" ++ rest) = "feat")
    ∧ (∀ scope rest : String, commit_type_of ("feat(" ++ scope ++ "): " ++ rest) = "feat")
    ∧ (∀ rest : String, globParenColon ("feat: " ++ rest) = false →
        (parse_subject ("feat: " ++ rest)).cleanSubject = ⟨rest.data.dropWhile (· = ' ')⟩)
    ∧ (∀ scope rest : String, ')' ∉ scope.data →
        parse_subject ("feat(" ++ scope ++ "): " ++ rest) =
          ⟨scope, ⟨rest.data.dropWhile (· = ' ')⟩⟩) := by
  refine ⟨?_, ?_, ?_, ?_, ?_⟩
  · intro s
    unfold commit_type_of orderedClassify classifyByRules orderedRules
    simp only [List.find?]
    cases h1 : prefixThen ['f', 'e', 'a', 't'] (asciiLower s).data <;>
    cases h2 : (prefixThen ['f', 'i', 'x'] (asciiLower s).data ||
        containsSub ['b', 'u', 'g'] (asciiLower s).data ||
        containsSub ['p', 'a', 't', 'c', 'h'] (asciiLower s).data) <;>
    cases h3 : (prefixThen ['d', 'o', 'c', 's'] (asciiLower s).data ||
        prefixThen ['d', 'o', 'c'] (asciiLower s).data) <;>
    cases h4 : prefixThen ['s', 't', 'y', 'l', 'e'] (asciiLower s).data <;>
    cases h5 : prefixThen ['r', 'e', 'f', 'a', 'c', 't', 'o', 'r'] (asciiLower s).data <;>
    cases h6 : prefixThen ['p', 'e', 'r', 'f'] (asciiLower s).data <;>
    cases h7 : prefixThen ['t', 'e', 's', 't'] (asciiLower s).data <;>
    cases h8 : prefixThen ['c', 'h', 'o', 'r', 'e'] (asciiLower s).data <;>
    simp [h1, h2, h3, h4, h5, h6, h7, h8]
  · intro rest
    have hl : (asciiLower ("feat:" ++ rest)).data =
        "feat".data ++ ':' :: (asciiLower rest).data := by
      rw [asciiLower_append]
      rfl
    have hpre : prefixThen ['f', 'e', 'a', 't']
        ('f' :: 'e' :: 'a' :: 't' :: ':' :: (asciiLower rest).data) = true :=
      prefixThen_concrete (Or.inl rfl) ((asciiLower rest).data)
    simp [commit_type_of, hl, hpre]
  · intro scope rest
    have hl : (asciiLower ("feat(" ++ scope ++ "): " ++ rest)).data =
        "feat".data ++ '(' :: (asciiLower (scope ++ "): " ++ rest)).data := by
      rw [show ("feat(" ++ scope ++ "): " ++ rest) =
        "feat(" ++ (scope ++ "): " ++ rest) from by simp [String.ext_iff]]
      rw [asciiLower_append]
      rfl
    have hpre : prefixThen ['f', 'e', 'a', 't']
        ('f' :: 'e' :: 'a' :: 't' :: '(' :: (asciiLower (scope ++ "): " ++ rest)).data) = true :=
      prefixThen_concrete (Or.inr (Or.inl rfl)) (asciiLower (scope ++ "): " ++ rest)).data
    simp [commit_type_of, hl, hpre]
  · intro rest hng
    have hdat : ("feat: " ++ rest).data = "feat".data ++ ':' :: ' ' :: rest.data := by
      simp [String.ext_iff]
    unfold parse_subject
    rw [if_neg (by simp [hng]), hdat, stripWordColon_app (by decide) (by decide)]
    simp [List.dropWhile]
  · intro scope rest hscope
    have heq : ("feat(" ++ scope ++ "): " ++ rest) =
        (⟨"feat".data ++ '(' :: (scope.data ++ ')' :: ':' :: ' ' :: rest.data)⟩ : String) := by
      apply String.ext
      simp
    rw [heq, parse_subject_conv (by decide) hscope]

/-- C1 witness: the amended statement applied at concrete subjects:
`feat: fix bug` stays feature despite the keywords, and both prefix
forms strip correctly. -/
theorem C1_classifier_witness :
    commit_type_of "feat:add stuff" = "feat"
    ∧ globParenColon ("feat: " ++ "fix a bug") = false
    ∧ (parse_subject ("feat: " ++ "fix a bug")).cleanSubject =
        ⟨("fix a bug" : String).data.dropWhile (· = ' ')⟩
    ∧ (')' ∉ ("ui" : String).data)
    ∧ parse_subject ("feat(" ++ "ui" ++ "): " ++ "add bug fix") =
        ⟨"ui", ⟨("add bug fix" : String).data.dropWhile (· = ' ')⟩⟩ :=
  ⟨C1_classifier.2.1 "add stuff", by decide,
    C1_classifier.2.2.2.1 "fix a bug" (by decide), by decide,
    C1_classifier.2.2.2.2 "ui" "add bug fix" (by decide)⟩

theorem mem_ite_pair {x : String × String} {xs : List (String × String)} {c : Prop}
    [Decidable c] : (x ∈ (if c then xs else [])) ↔ (c ∧ x ∈ xs) := by
  by_cases h : c <;> simp [h]

theorem shape_ne_empty_array {v : String} {r : List Char}
    (h : v.data = '[' :: '"' :: r) : ¬(v = "[]") := by
  intro he
  subst he
  simp at h

theorem shape_ne_null {v : String} {r : List Char}
    (h : v.data = '[' :: '"' :: r) : ¬(v = "null") := by
  intro he
  subst he
  simp at h

theorem convert_branches_shape {br : String} (h : ¬(convert_branches_to_json_array br = "")) :
    ∃ r, (convert_branches_to_json_array br).data = '[' :: '"' :: r := by
  unfold convert_branches_to_json_array at h ⊢
  by_cases hbr : br = ""
  · simp [hbr] at h
  · rw [if_neg hbr] at h ⊢
    cases hs : bashCommaSplit br with
    | nil => exact absurd hs (bashCommaSplit_ne_nil hbr)
    | cons b bs =>
      simp only [List.map_cons]
      exact bracket_join_shape rfl (quoted_data _)

theorem convert_files_shape {files : List String} (h : ¬(convert_files_to_json_array files = "")) :
    ∃ r, (convert_files_to_json_array files).data = '[' :: '"' :: r := by
  unfold convert_files_to_json_array at h ⊢
  cases hs : files.filter (fun f => !(f = "")) with
  | nil =>
    rw [hs] at h
    simp at h
  | cons f fs =>
    simp only [List.map_cons]
    exact bracket_join_shape rfl (quoted_data _)

theorem parse_bug_shape {m : String} (h : ¬(parse_bug_mentions m = "")) :
    ∃ r, (parse_bug_mentions m).data = '[' :: '"' :: r := by
  unfold parse_bug_mentions at h ⊢
  cases hs : bug_labels m with
  | nil =>
    rw [hs] at h
    simp at h
  | cons lb lbs =>
    dsimp only
    simp only [List.map_cons]
    exact bracket_join_shape rfl (quoted_data _)

/-- C4 counterexample: the claim says a component is extracted only for
subjects of the conventional form `word(scope): text`. The code's glob
test fires on any subject containing `(`…`): `, so
`update (docs): tweak` — not of the conventional form — still gets
component `docs`, while its cleanSubject stays verbatim. The claim's
`word: text` clause is also looser in code: `fix:broken` (no space) is
stripped too. -/
theorem C4_counterexample :
    claimedConventionalForm "update (docs): tweak" = false
    ∧ (parse_subject "update (docs): tweak").component = "docs"
    ∧ (parse_subject "update (docs): tweak").cleanSubject = "update (docs): tweak"
    ∧ (parse_subject "fix:broken").cleanSubject = "broken" := by
  refine ⟨by decide, by decide, by decide, by decide⟩

/-- C4 amended: the component branch is taken exactly when the subject
contains a `(` later followed by `): ` (not only for `word(scope): text`);
the component is the text between the first `(` and the first `)`.
When the subject is `letters(scope): text` with a `)`-free scope, the
claim's behaviour holds: component = scope, cleanSubject = text. When
the subject is `letters:text` (any or no spaces after the colon) and
not in the component branch, the prefix is stripped. Otherwise the
subject is kept verbatim with no component. -/
theorem C4_component_extraction :
    (∀ s : String, globParenColon s = true ↔
      ∃ x y z : List Char, s.data = x ++ '(' :: (y ++ ')' :: ':' :: ' ' :: z))
    ∧ (∀ s : String, globParenColon s = false → (parse_subject s).component = "")
    ∧ (∀ a b c : List Char, '(' ∉ a → ')' ∉ b →
        (parse_subject ⟨a ++ '(' :: (b ++ ')' :: ':' :: ' ' :: c)⟩).component = ⟨b⟩)
    ∧ (∀ w b c : List Char, (∀ x ∈ w, isAsciiAlpha x = true) → ')' ∉ b →
        parse_subject ⟨w ++ '(' :: (b ++ ')' :: ':' :: ' ' :: c)⟩ =
          ⟨⟨b⟩, ⟨c.dropWhile (· = ' ')⟩⟩)
    ∧ (∀ w c : List Char, (∀ x ∈ w, isAsciiAlpha x = true) → ¬(w = []) →
        globParenColon ⟨w ++ ':' :: c⟩ = false →
        parse_subject ⟨w ++ ':' :: c⟩ = ⟨"", ⟨c.dropWhile (· = ' ')⟩⟩)
    ∧ (∀ s : String, globParenColon s = false → stripWordColon s.data = none →
        parse_subject s = ⟨"", s⟩) :=
  ⟨fun _ => globParenColon_ex,
   fun _ hng => parse_subject_component_empty hng,
   fun _ _ _ ha hb => parse_subject_component ha hb,
   fun _ _ _ hw hb => parse_subject_conv hw hb,
   fun _ _ hw hne hng => parse_subject_word_colon hw hne hng,
   fun _ hng hnw => parse_subject_verbatim hng hnw⟩

/-- C4 witness: the amended statement applied at `feat(ui): add` and at
a glob-matching decomposition of `update (docs): tweak`. -/
theorem C4_component_witness :
    parse_subject "feat(ui): add" = ⟨"ui", "add"⟩
    ∧ globParenColon "update (docs): tweak" = true := by
  constructor
  · have h := C4_component_extraction.2.2.2.1 "feat".data "ui".data "add".data
      (by decide) (by decide)
    have heq : (⟨"feat".data ++ '(' :: ("ui".data ++ ')' :: ':' :: ' ' :: "add".data)⟩ : String) =
        "feat(ui): add" := by decide
    rw [heq] at h
    exact h.trans (by decide)
  · exact (C4_component_extraction.1 "update (docs): tweak").mpr
      ⟨"update ".data, "docs".data, "tweak".data, by decide⟩

/-- C5 counterexample: the claim says a blank body leads to the `body`
key being omitted. A body consisting of a single tab is blank, but
`clean_text` escapes the tab to the two characters `\t`, which is
non-empty, so the `body` key is emitted. -/
theorem C5_counterexample :
    isBlankStr "\t" = true
    ∧ ("body" ∈ (jsonFields
        ⟨"other", "", "subject", "abc1234", "2024-01-01", false, "", "Ann", "", [],
          "subject", "\t"⟩).map Prod.fst) := by
  refine ⟨by decide, by decide⟩

/-- C5 amended: for every commit object, `component` is present iff the
component string is non-empty; `timestamp` only when time inclusion is
on; `branches` iff the branch string is non-empty; `files` iff some
file line is non-empty; `bug` iff some bug label was parsed; and `body`
iff the JSON-escaped, trimmed body is non-empty (bodies of spaces or
newlines are omitted; tab- or CR-only bodies escape to visible text and
are kept). Emitted `component`/`body` values are quoted strings, and
emitted `branches`/`files`/`bug` values are non-empty JSON arrays —
never `null` or `[]`. -/
theorem C5_field_omission (cv : CommitView) :
    (("component" ∈ (jsonFields cv).map Prod.fst) ↔ ¬(cv.component = ""))
    ∧ (("timestamp" ∈ (jsonFields cv).map Prod.fst) → cv.include_time = true)
    ∧ (("branches" ∈ (jsonFields cv).map Prod.fst) ↔ ¬(cv.branches = ""))
    ∧ (("files" ∈ (jsonFields cv).map Prod.fst) ↔
        ¬(cv.files.filter (fun f => !(f = "")) = []))
    ∧ (("bug" ∈ (jsonFields cv).map Prod.fst) ↔
        ¬(bug_labels (cv.subject ++ " " ++ cv.body) = []))
    ∧ (("body" ∈ (jsonFields cv).map Prod.fst) ↔ ¬(clean_text cv.body = ""))
    ∧ (∀ v : String, (("component", v) ∈ jsonFields cv ∨ ("body", v) ∈ jsonFields cv) →
        ∃ r, v.data = '"' :: r)
    ∧ (∀ v : String,
        (("branches", v) ∈ jsonFields cv ∨ ("files", v) ∈ jsonFields cv ∨
          ("bug", v) ∈ jsonFields cv) →
        ¬(v = "[]") ∧ ¬(v = "null")) := by
  refine ⟨?_, ?_, ?_, ?_, ?_, ?_, ?_, ?_⟩
  · simp [jsonFields, mem_fst_ite]
  · intro h
    simp [jsonFields, mem_fst_ite] at h
    exact h.1
  · simp [jsonFields, mem_fst_ite, convert_branches_empty]
  · simp [jsonFields, mem_fst_ite, convert_files_empty]
  · simp [jsonFields, mem_fst_ite, parse_bug_mentions_empty]
  · simp [jsonFields, mem_fst_ite, clean_text_ne_space cv.body]
  · intro v hv
    rcases hv with hv | hv <;>
    · simp [jsonFields, mem_ite_pair] at hv
      rcases hv with ⟨_, rfl⟩
      exact ⟨_, quoted_data _⟩
  · intro v hv
    rcases hv with hv | hv | hv
    · simp [jsonFields, mem_ite_pair] at hv
      rcases hv with ⟨hne, rfl⟩
      obtain ⟨r, hr⟩ := convert_branches_shape hne
      exact ⟨shape_ne_empty_array hr, shape_ne_null hr⟩
    · simp [jsonFields, mem_ite_pair] at hv
      rcases hv with ⟨hne, rfl⟩
      obtain ⟨r, hr⟩ := convert_files_shape hne
      exact ⟨shape_ne_empty_array hr, shape_ne_null hr⟩
    · simp [jsonFields, mem_ite_pair] at hv
      rcases hv with ⟨hne, rfl⟩
      obtain ⟨r, hr⟩ := parse_bug_shape hne
      exact ⟨shape_ne_empty_array hr, shape_ne_null hr⟩

/-- C5 witness: the amended statement applied to a fully-populated
concrete commit. -/
theorem C5_field_omission_witness :
    ("component" ∈ (jsonFields
      ⟨"feat", "ui", "add", "abc", "2024-01-01", true, "1700000000", "Ann", "main,dev",
        ["a.js", "b.js"], "feat(ui): add @bug:fn", ""⟩).map Prod.fst)
    ∧ ¬(("ui" : String) = "") := by
  refine ⟨?_, by decide⟩
  exact (C5_field_omission
    ⟨"feat", "ui", "add", "abc", "2024-01-01", true, "1700000000", "Ann", "main,dev",
      ["a.js", "b.js"], "feat(ui): add @bug:fn", ""⟩).1.mpr (by decide)

/-- C10: `createTagAndChangelog` and `autoIncrementTag` never reject:
for every process outcome each resolves (`Except.ok`) with a result
object whose `success` field is true exactly when the script exited
with code 0; on a nonzero exit, the result carries the stderr-derived
message and the captured stdio, and on a spawn failure it carries the
spawn error message with empty stdio fields. -/
theorem C10_api_resolves (version incrementType : String) (opts : ApiOptions)
    (proc : ProcOutcome) :
    (∃ r, createTagAndChangelog version opts proc = Except.ok r
      ∧ r.success = isExitZero proc
      ∧ (∀ m, proc = .spawnErr m → r.error = m ∧ r.output = "" ∧ r.stderr = "")
      ∧ (∀ (c : Int) (out err : String), proc = .closed c out err → ¬(c = 0) →
          r.error = (if err = "" then "Process exited with code " ++ toString c else err)
          ∧ r.output = out ∧ r.stderr = err))
    ∧ (∃ r, autoIncrementTag incrementType opts proc = Except.ok r
      ∧ r.success = isExitZero proc
      ∧ (∀ m, proc = .spawnErr m → r.error = m ∧ r.output = "" ∧ r.stderr = "")
      ∧ (∀ (c : Int) (out err : String), proc = .closed c out err → ¬(c = 0) →
          r.error = (if err = "" then "Process exited with code " ++ toString c else err)
          ∧ r.output = out ∧ r.stderr = err)) := by
  cases proc with
  | closed c out err =>
    by_cases hc : c = 0
    · subst hc
      constructor
      · refine ⟨_, rfl, rfl, ?_, ?_⟩
        · intro m hm
          exact ProcOutcome.noConfusion hm
        · intro c' out' err' heq hne
          injection heq with h1 _ _
          exact absurd h1.symm hne
      · refine ⟨_, rfl, rfl, ?_, ?_⟩
        · intro m hm
          exact ProcOutcome.noConfusion hm
        · intro c' out' err' heq hne
          injection heq with h1 _ _
          exact absurd h1.symm hne
    · constructor
      · have hr : createTagAndChangelog version opts (.closed c out err) = Except.ok
            { success := false, version := version, tag := "", changelog := "",
              incrementType := "", dryRun := false,
              error := if err = "" then "Process exited with code " ++ toString c else err,
              output := out, stderr := err } := by
          simp [createTagAndChangelog, executeCommand, hc]
        refine ⟨_, hr, ?_, ?_, ?_⟩
        · simp [isExitZero, hc]
        · intro m hm
          exact ProcOutcome.noConfusion hm
        · intro c' out' err' heq hne
          injection heq with h1 h2 h3
          subst h1; subst h2; subst h3
          exact ⟨rfl, rfl, rfl⟩
      · have hr : autoIncrementTag incrementType opts (.closed c out err) = Except.ok
            { success := false, version := "", tag := "", changelog := "",
              incrementType := incrementType, dryRun := false,
              error := if err = "" then "Process exited with code " ++ toString c else err,
              output := out, stderr := err } := by
          simp [autoIncrementTag, executeCommand, hc]
        refine ⟨_, hr, ?_, ?_, ?_⟩
        · simp [isExitZero, hc]
        · intro m hm
          exact ProcOutcome.noConfusion hm
        · intro c' out' err' heq hne
          injection heq with h1 h2 h3
          subst h1; subst h2; subst h3
          exact ⟨rfl, rfl, rfl⟩
  | spawnErr m0 =>
    constructor
    · refine ⟨_, rfl, rfl, ?_, ?_⟩
      · intro m hm
        injection hm with h1
        subst h1
        exact ⟨rfl, rfl, rfl⟩
      · intro c' out' err' heq _
        exact ProcOutcome.noConfusion heq
    · refine ⟨_, rfl, rfl, ?_, ?_⟩
      · intro m hm
        injection hm with h1
        subst h1
        exact ⟨rfl, rfl, rfl⟩
      · intro c' out' err' heq _
        exact ProcOutcome.noConfusion heq

/-- C10 witness: the statement applied to a spawn failure and to a
successful exit. -/
theorem C10_api_resolves_witness :
    (∃ r, createTagAndChangelog "1.2.3" ⟨"v", "markdown", "", false⟩ (.spawnErr "boom") =
        Except.ok r ∧ r.success = false ∧ r.error = "boom")
    ∧ (∃ r, autoIncrementTag "patch" ⟨"v", "markdown", "", false⟩
        (.closed 0 "out" "Version: 1.2.3") = Except.ok r ∧ r.success = true) := by
  constructor
  · obtain ⟨⟨r, hok, hs, hsp, _⟩, _⟩ :=
      C10_api_resolves "1.2.3" "patch" ⟨"v", "markdown", "", false⟩ (.spawnErr "boom")
    exact ⟨r, hok, by simpa [isExitZero] using hs, (hsp "boom" rfl).1⟩
  · obtain ⟨_, ⟨r, hok, hs, _, _⟩⟩ :=
      C10_api_resolves "1.2.3" "patch" ⟨"v", "markdown", "", false⟩
        (.closed 0 "out" "Version: 1.2.3")
    exact ⟨r, hok, by simpa [isExitZero] using hs⟩

end ChangelogGen
